import Mathlib

/-!
Verification of the tourism-agent pipeline (trend ranking, file deduplication,
publisher retry, analytics store, scheduled-post queue) against its
natural-language specification.  Each definition is a shallow embedding of the
corresponding Python function; Python strings are Lean `String`s, Python ints
are `Int`/`Nat`, a Python function that may raise is embedded as `Except Unit`
or `Option`.
-/

/-! ## Trend ranking (agents/trend_agent.py)

`analyze_and_rank_trends` flattens the per-source candidate lists, aggregates
raw scores per comparison key (topic lower-cased, truncated to 80 characters),
adds a word-frequency bonus, sorts descending (stably), deduplicates by key and
stops after 3 unique results.
-/

/-- A candidate dict's "score" field: absent, present-but-empty (Python `None`
or `""`, on which integer addition raises `TypeError`), or an integer. -/
inductive ScoreField : Type
  | missing : ScoreField
  | null : ScoreField
  | val : Int → ScoreField
deriving DecidableEq

/-- A topic candidate dict `{topic, score, source}` as produced by the source
connectors (`item.get("topic", "")` makes a missing topic the empty string, so
`topic` is a plain `String`). -/
structure Candidate where
  topic : String
  score : ScoreField
  source : Option String
deriving DecidableEq

/-- A ranked output dict `{topic, score, source}`; `source` is `none` for the
default-keyword entries, which the code builds without a "source" key. -/
structure Ranked where
  topic : String
  score : Int
  source : Option String
deriving DecidableEq

/-- Python `str.lower()` on the underlying characters (ASCII-faithful). -/
def pyLower (s : String) : String := String.mk (s.data.map Char.toLower)

/-- The comparison key `topic.lower()[:80]`. -/
def pyKey (topic : String) : String := String.mk ((pyLower topic).data.take 80)

/-- Helper for `pySplit`: split a character list on whitespace runs,
dropping empty fragments, accumulating the current word reversed. -/
def splitWsAux : List Char → List Char → List (List Char)
  | [], cur => if cur = [] then [] else [cur.reverse]
  | c :: rest, cur =>
    if c.isWhitespace then
      if cur = [] then splitWsAux rest []
      else cur.reverse :: splitWsAux rest []
    else splitWsAux rest (c :: cur)

/-- Python `str.split()` with no arguments: split on whitespace runs,
no empty words. -/
def pySplit (s : String) : List String := (splitWsAux s.data []).map String.mk

/-- The dict `topic_scores` (string → int), looked up with a default. -/
abbrev ScoreMap := List (String × Int)

/-- The `collections.Counter` of words (string → count, default 0). -/
abbrev WordCounter := List (String × Nat)

/-- `topic_scores.get(k, d)`. -/
def lookupInt (m : ScoreMap) (k : String) (d : Int) : Int :=
  match m.find? (fun p => decide (p.1 = k)) with
  | some p => p.2
  | none => d

/-- `word_counter[w]` / `word_counter.get(w, 0)` (Counter default 0). -/
def lookupNat (m : WordCounter) (k : String) : Nat :=
  match m.find? (fun p => decide (p.1 = k)) with
  | some p => p.2
  | none => 0

/-- `item.get("score", 50)`: a missing field defaults to 50; a
present-but-empty field yields a non-integer value (`none` here), on which the
subsequent addition raises. -/
def rawScore? : ScoreField → Option Int
  | .missing => some 50
  | .null => none
  | .val n => some n

/-- The inner loop `for word in topic.lower().split(): if len(word) > 4:
word_counter[word] += 1` (a Counter update is modelled by consing the new
binding; `lookupNat` finds the most recent one). -/
def countWords (wc : WordCounter) (ws : List String) : WordCounter :=
  ws.foldl (fun wc w => if w.length > 4 then (w, lookupNat wc w + 1) :: wc else wc) wc

/-- The first pass over `flat`: accumulate `topic_scores` and `word_counter`;
raises (`.error ()`) when a present-but-empty score meets `+`. -/
def scorePass : List Candidate → ScoreMap × WordCounter → Except Unit (ScoreMap × WordCounter)
  | [], st => .ok st
  | c :: rest, (ts, wc) =>
    match rawScore? c.score with
    | none => .error ()
    | some s =>
      scorePass rest
        ((pyKey c.topic, lookupInt ts (pyKey c.topic) 0 + s) :: ts,
         countWords wc (pySplit (pyLower c.topic)))

/-- The second pass, one item: `base_score = topic_scores.get(key, 50)` plus
the frequency bonus `sum(word_counter.get(w, 0) for w in key.split() if
len(w) > 4)`. -/
def rankItem (ts : ScoreMap) (wc : WordCounter) (c : Candidate) : Ranked :=
  let key := pyKey c.topic
  let base := lookupInt ts key 50
  let bonus : Nat := (((pySplit key).filter (fun w => w.length > 4)).map (fun w => lookupNat wc w)).sum
  { topic := c.topic, score := base + (bonus : Int), source := some (c.source.getD "unknown") }

/-- `sorted(ranked_items, key=lambda x: x["score"], reverse=True)`: CPython's
sort is stable also with `reverse=True`, i.e. equal-score items keep their
original relative order; insertion before the first element of not-larger
score realises exactly that. -/
def insertDesc (x : Ranked) : List Ranked → List Ranked
  | [] => [x]
  | y :: ys => if x.score ≥ y.score then x :: y :: ys else y :: insertDesc x ys

/-- Stable descending sort by final score. -/
def pySortDesc : List Ranked → List Ranked
  | [] => []
  | x :: xs => insertDesc x (pySortDesc xs)

/-- The final loop: walk the sorted items, skip already-seen comparison keys,
stop as soon as 3 unique results are collected. -/
def dedupLoop : List Ranked → List String → List Ranked → List Ranked
  | [], _, acc => acc.reverse
  | item :: rest, seen, acc =>
    let key := pyKey item.topic
    let p := if key ∈ seen then (seen, acc) else (key :: seen, item :: acc)
    if p.2.length ≥ 3 then p.2.reverse else dedupLoop rest p.1 p.2

/-- `analyze_and_rank_trends` on the flattened candidate list. -/
def analyzeRankedCore (flat : List Candidate) (keywords : List String) :
    Except Unit (List Ranked) :=
  if flat.isEmpty then
    .ok ((keywords.take 3).map (fun kw => { topic := kw, score := 50, source := none }))
  else
    match scorePass flat ([], []) with
    | .error e => .error e
    | .ok (ts, wc) => .ok (dedupLoop (pySortDesc (flat.map (rankItem ts wc))) [] [])

/-- `analyze_and_rank_trends`: the input dict's list values, in insertion
order, are the `List (List Candidate)`; flattening is `List.flatten`. -/
def analyze_and_rank_trends (allTrends : List (List Candidate)) (keywords : List String) :
    Except Unit (List Ranked) :=
  analyzeRankedCore allTrends.flatten keywords

deriving instance DecidableEq for Except

/-- `config.LOCATION["keywords"]`. -/
def tunisKeywords : List String :=
  ["Tunis travel", "Tunisia tourism", "visit Tunis",
   "things to do in Tunis", "Tunis hidden gems"]

/-- `get_best_topic`: `trends.get("ranked", [])`, returning the first ranked
topic, else `self.location["keywords"][0]`. -/
def get_best_topic (trendsRanked : Option (List Ranked)) : String :=
  match trendsRanked.getD [] with
  | [] => tunisKeywords.get ⟨0, by decide⟩
  | r :: _ => r.topic

/-! ### Spec-side definitions for the ranking claim

These follow the words of the claim, to be compared with the embedding above:
per-candidate final score = sum of raw scores over candidates sharing the
comparison key, plus the sum over qualifying words of their total occurrence
count across all candidates' topics.  The claim as frozen takes the qualifying
words from the candidate's own (full) topic; the code takes them from the
80-character truncated comparison key.
-/

/-- Total occurrence count of word `w` across all candidates' lower-cased
topics (the tally the first pass accumulates). -/
def rawOccurrences (flat : List Candidate) (w : String) : Nat :=
  (flat.map (fun c => (pySplit (pyLower c.topic)).count w)).sum

/-- Sum of the raw scores of all candidates whose comparison key is `k`
(a missing score counting as 50). -/
def sumScoresForKey (flat : List Candidate) (k : String) : Int :=
  ((flat.filter (fun c => decide (pyKey c.topic = k))).map
    (fun c => (rawScore? c.score).getD 50)).sum

/-- The final score exactly as the claim words it: bonus words drawn from the
candidate's own full topic. -/
def claimFinalScore (flat : List Candidate) (c : Candidate) : Int :=
  sumScoresForKey flat (pyKey c.topic) +
    ((((pySplit (pyLower c.topic)).filter (fun w => w.length > 4)).map
      (fun w => rawOccurrences flat w)).sum : Nat)

/-- The final score as amended: bonus words drawn from the candidate's
comparison key (lower-cased topic truncated to 80 characters). -/
def amendedFinalScore (flat : List Candidate) (c : Candidate) : Int :=
  sumScoresForKey flat (pyKey c.topic) +
    ((((pySplit (pyKey c.topic)).filter (fun w => w.length > 4)).map
      (fun w => rawOccurrences flat w)).sum : Nat)

/-- The ranked list per the claim's recipe, as frozen. -/
def claimRankedList (flat : List Candidate) : List Ranked :=
  dedupLoop (pySortDesc (flat.map (fun c =>
    { topic := c.topic, score := claimFinalScore flat c,
      source := some (c.source.getD "unknown") }))) [] []

/-- The ranked list per the amended recipe. -/
def amendedRankedList (flat : List Candidate) : List Ranked :=
  dedupLoop (pySortDesc (flat.map (fun c =>
    { topic := c.topic, score := amendedFinalScore flat c,
      source := some (c.source.getD "unknown") }))) [] []

/-! ## Theorems: the easy ranking claims -/

/-- C2: with an empty flattened candidate list, `analyze_and_rank_trends` does
not raise and returns exactly the configured default keyword list — one entry
per configured keyword, capped at 3, each with score 50 — of length ≤ 3. -/
theorem analyze_empty_returns_defaults (allTrends : List (List Candidate))
    (h : allTrends.flatten = []) :
    analyze_and_rank_trends allTrends tunisKeywords =
      .ok ((tunisKeywords.take 3).map (fun kw => { topic := kw, score := 50, source := none })) ∧
    ((tunisKeywords.take 3).map
      (fun kw => ({ topic := kw, score := 50, source := none } : Ranked))).length ≤ 3 := by
  constructor
  · unfold analyze_and_rank_trends analyzeRankedCore
    rw [h]
    rfl
  · decide

/-- Witness for C2 at the concrete input with no candidate lists. -/
theorem analyze_empty_returns_defaults_witness :
    analyze_and_rank_trends [] tunisKeywords =
      .ok ((tunisKeywords.take 3).map (fun kw => { topic := kw, score := 50, source := none })) ∧
    ((tunisKeywords.take 3).map
      (fun kw => ({ topic := kw, score := 50, source := none } : Ranked))).length ≤ 3 :=
  analyze_empty_returns_defaults [] rfl

/-- The google candidate of the end-to-end scenario claim. -/
def c3google : Candidate := { topic := "Tunis beaches", score := .val 80, source := none }

/-- The reddit candidate of the end-to-end scenario claim. -/
def c3reddit : Candidate := { topic := "Tunis beaches are amazing", score := .val 60, source := none }

/-- C3: on the two-candidate input {google: [Tunis beaches/80], reddit:
[Tunis beaches are amazing/60]} the ranked output's top entry is
"Tunis beaches" (score 84 = 80 + 2 + 2), ahead of the other topic
(score 65 = 60 + 2 + 2 + 1). -/
theorem analyze_tunis_beaches_example :
    analyze_and_rank_trends [[c3google], [c3reddit]] tunisKeywords =
      .ok [{ topic := "Tunis beaches", score := 84, source := some "unknown" },
           { topic := "Tunis beaches are amazing", score := 65, source := some "unknown" }] := by
  decide

/-- C10: with the "ranked" entry absent or empty, `get_best_topic` does not
raise and returns the first configured location keyword; otherwise it returns
the topic of the first ranked entry. -/
theorem get_best_topic_spec :
    (∀ t : Option (List Ranked), (t = none ∨ t = some []) →
      get_best_topic t = "Tunis travel") ∧
    (∀ (r : Ranked) (rs : List Ranked), get_best_topic (some (r :: rs)) = r.topic) := by
  refine ⟨?_, ?_⟩
  · intro t ht
    rcases ht with h | h <;> subst h <;> rfl
  · intro r rs
    rfl

/-- Witness for C10 at the concrete input with no "ranked" entry. -/
theorem get_best_topic_spec_witness : get_best_topic none = "Tunis travel" :=
  get_best_topic_spec.1 none (Or.inl rfl)

/-! ## File deduplication (utils/file_manager.py)

`deduplicate_files` walks the path list, hashes each file (MD5 of the whole
content), keeps the first occurrence of each hash, and keeps any file whose
hashing raises.  The file system is abstracted as a hashing function
`hash : α → Option β` on file references (`none` = `file_hash` raised). -/

/-- The loop of `deduplicate_files`, carrying the `seen` hash set. -/
def dedupFilesAux {α β : Type} [DecidableEq β] (hash : α → Option β) :
    List α → List β → List α
  | [], _ => []
  | p :: rest, seen =>
    match hash p with
    | some h =>
      if h ∈ seen then dedupFilesAux hash rest seen
      else p :: dedupFilesAux hash rest (h :: seen)
    | none => p :: dedupFilesAux hash rest seen

/-- `deduplicate_files(paths)` with the given file-system hashing function. -/
def deduplicate_files {α β : Type} [DecidableEq β] (hash : α → Option β)
    (paths : List α) : List α :=
  dedupFilesAux hash paths []

/-- The output of the dedup loop is a sublist (subsequence) of its input. -/
theorem dedupFilesAux_sublist {α β : Type} [DecidableEq β] (hash : α → Option β) :
    ∀ (L : List α) (seen : List β), (dedupFilesAux hash L seen).Sublist L := by
  intro L
  induction L with
  | nil => intro seen; simp [dedupFilesAux]
  | cons p rest ih =>
    intro seen
    unfold dedupFilesAux
    cases hp : hash p with
    | some h =>
      by_cases hs : h ∈ seen
      · simp only [hs, if_pos]
        exact (ih seen).cons p
      · simp only [hs, if_neg, not_false_iff]
        exact (ih (h :: seen)).cons₂ p
    | none => exact (ih seen).cons₂ p

/-- Per-hash filtering of the dedup loop: nothing survives for a hash already
seen; otherwise exactly the first input occurrence of that hash survives. -/
theorem dedupFilesAux_filter {α β : Type} [DecidableEq β] (hash : α → Option β) :
    ∀ (L : List α) (seen : List β) (h : β),
      (dedupFilesAux hash L seen).filter (fun p => decide (hash p = some h)) =
        if h ∈ seen then []
        else (L.filter (fun p => decide (hash p = some h))).take 1 := by
  intro L
  induction L with
  | nil => intro seen h; simp [dedupFilesAux]
  | cons p rest ih =>
    intro seen h
    unfold dedupFilesAux
    cases hp : hash p with
    | some h' =>
      by_cases hs : h' ∈ seen
      · simp only [hs, if_pos]
        rw [ih seen h]
        by_cases hh : h ∈ seen
        · simp [hh]
        · have hne : ¬(hash p = some h) := by
            rw [hp]; intro e; exact hh (Option.some.inj e ▸ hs)
          simp [hh, List.filter_cons, hne]
      · simp only [hs, if_neg, not_false_iff]
        by_cases he : h' = h
        · subst he
          have hh : h' ∉ seen := hs
          have hPp : decide (hash p = some h') = true := by simp [hp]
          rw [List.filter_cons, List.filter_cons]
          simp only [hPp, if_pos]
          rw [ih (h' :: seen) h']
          simp [hh]
        · have hne : ¬(hash p = some h) := by
            rw [hp]; intro e; exact he (Option.some.inj e)
          rw [List.filter_cons, List.filter_cons]
          simp only [hne, decide_eq_true_eq, if_neg, not_false_iff]
          rw [ih (h' :: seen) h]
          by_cases hh : h ∈ seen
          · have hmem : h ∈ h' :: seen := List.mem_cons_of_mem _ hh
            simp [hh, hmem]
          · have hmem : h ∉ h' :: seen := by
              intro hm
              rcases List.mem_cons.mp hm with e | hm2
              · exact he e.symm
              · exact hh hm2
            simp [hh, hmem]
    | none =>
      have hne : ¬(hash p = some h) := by rw [hp]; intro e; exact Option.noConfusion e
      rw [List.filter_cons, List.filter_cons]
      simp only [hne, decide_eq_true_eq, if_neg, not_false_iff]
      exact ih seen h

/-- Files that fail to hash are fully retained: their multiplicity in the
output equals their multiplicity in the input. -/
theorem dedupFilesAux_count_none {α β : Type} [DecidableEq α] [DecidableEq β]
    (hash : α → Option β) :
    ∀ (L : List α) (seen : List β) (p : α), hash p = none →
      (dedupFilesAux hash L seen).count p = L.count p := by
  intro L
  induction L with
  | nil => intro seen p _; simp [dedupFilesAux]
  | cons q rest ih =>
    intro seen p hp
    unfold dedupFilesAux
    cases hq : hash q with
    | some h =>
      have hne : q ≠ p := fun e => by rw [e, hp] at hq; exact Option.noConfusion hq
      by_cases hs : h ∈ seen
      · simp only [hs, if_pos]
        rw [ih seen p hp, List.count_cons]
        simp [hne, hne.symm]
      · simp only [hs, if_neg, not_false_iff]
        rw [List.count_cons, List.count_cons, ih (h :: seen) p hp]
    | none =>
      simp only [List.count_cons]
      rw [ih seen p hp]

/-- C5: `deduplicate_files` keeps exactly the first occurrence of each
distinct content hash (per-hash filtering equals `take 1` of the input's
per-hash filtering), every output is a subsequence of the input (order
preserved), files that fail to hash are fully retained, and on the concrete
list [A, B, A, C] with distinct contents (hash = content, here 0, 1, 0, 2)
the output is [A, B, C]. -/
theorem deduplicate_files_spec {α β : Type} [DecidableEq α] [DecidableEq β]
    (hash : α → Option β) (L : List α) :
    (deduplicate_files hash L).Sublist L ∧
    (∀ h : β, (deduplicate_files hash L).filter (fun p => decide (hash p = some h)) =
      (L.filter (fun p => decide (hash p = some h))).take 1) ∧
    (∀ p : α, hash p = none → (deduplicate_files hash L).count p = L.count p) ∧
    deduplicate_files (fun n : Nat => some n) [0, 1, 0, 2] = [0, 1, 2] := by
  refine ⟨dedupFilesAux_sublist hash L [], ?_, ?_, by decide⟩
  · intro h
    have := dedupFilesAux_filter hash L [] h
    simpa using this
  · intro p hp
    exact dedupFilesAux_count_none hash L [] p hp

/-- An always-failing-on-3 hash used to witness the error-retention clause. -/
def hashWithFailure : Nat → Option Nat := fun n => if n = 3 then none else some n

/-- Witness for C5: order preservation and error-file retention at a concrete
input where hashing path 3 fails. -/
theorem deduplicate_files_spec_witness :
    (deduplicate_files hashWithFailure [0, 1, 0, 2, 3]).Sublist [0, 1, 0, 2, 3] ∧
    (deduplicate_files hashWithFailure [0, 1, 0, 2, 3]).count 3 = [0, 1, 0, 2, 3].count 3 :=
  ⟨(deduplicate_files_spec hashWithFailure [0, 1, 0, 2, 3]).1,
   (deduplicate_files_spec hashWithFailure [0, 1, 0, 2, 3]).2.2.1 3 (by decide)⟩

/-- The successful hashes of the dedup loop's output are pairwise distinct and
disjoint from the already-seen set. -/
theorem dedupFilesAux_hashes_nodup {α β : Type} [DecidableEq β] (hash : α → Option β) :
    ∀ (L : List α) (seen : List β),
      ((dedupFilesAux hash L seen).filterMap hash).Nodup ∧
      ∀ h ∈ (dedupFilesAux hash L seen).filterMap hash, h ∉ seen := by
  intro L
  induction L with
  | nil => intro seen; simp [dedupFilesAux]
  | cons p rest ih =>
    intro seen
    unfold dedupFilesAux
    cases hp : hash p with
    | some h =>
      by_cases hs : h ∈ seen
      · simp only [hs, if_pos]
        exact ih seen
      · simp only [hs, if_neg, not_false_iff]
        rw [List.filterMap_cons]
        simp only [hp]
        obtain ⟨ihn, ihs⟩ := ih (h :: seen)
        refine ⟨List.nodup_cons.mpr ⟨?_, ihn⟩, ?_⟩
        · intro hmem
          exact ihs h hmem (List.mem_cons_self h seen)
        · intro h' hmem
          rcases List.mem_cons.mp hmem with e | hm2
          · exact e ▸ hs
          · intro hsn
            exact ihs h' hm2 (List.mem_cons_of_mem _ hsn)
    | none =>
      rw [List.filterMap_cons]
      simp only [hp]
      exact ih seen

/-- On a list whose successful hashes are pairwise distinct and unseen, the
dedup loop is the identity. -/
theorem dedupFilesAux_fixed {α β : Type} [DecidableEq β] (hash : α → Option β) :
    ∀ (M : List α) (seen : List β),
      (M.filterMap hash).Nodup → (∀ h ∈ M.filterMap hash, h ∉ seen) →
      dedupFilesAux hash M seen = M := by
  intro M
  induction M with
  | nil => intro seen _ _; rfl
  | cons p rest ih =>
    intro seen hnd hdisj
    unfold dedupFilesAux
    cases hp : hash p with
    | some h =>
      have hmem : h ∈ (p :: rest).filterMap hash := by
        rw [List.filterMap_cons]
        simp [hp]
      have hs : h ∉ seen := hdisj h hmem
      simp only [hs, if_neg, not_false_iff]
      rw [List.filterMap_cons] at hnd hdisj
      simp only [hp] at hnd hdisj
      obtain ⟨hhead, htail⟩ := List.nodup_cons.mp hnd
      rw [ih (h :: seen) htail ?_]
      intro h' hm2
      intro hin
      rcases List.mem_cons.mp hin with e | hsn
      · exact hhead (e ▸ hm2)
      · exact hdisj h' (List.mem_cons_of_mem _ hm2) hsn
    | none =>
      rw [List.filterMap_cons] at hnd hdisj
      simp only [hp] at hnd hdisj
      rw [ih seen hnd hdisj]

/-- C6: `deduplicate_files` is idempotent (with file contents, i.e. the
hashing function, fixed between the two calls). -/
theorem deduplicate_files_idempotent {α β : Type} [DecidableEq β]
    (hash : α → Option β) (L : List α) :
    deduplicate_files hash (deduplicate_files hash L) = deduplicate_files hash L := by
  unfold deduplicate_files
  obtain ⟨hnd, hdisj⟩ := dedupFilesAux_hashes_nodup hash L []
  exact dedupFilesAux_fixed hash (dedupFilesAux hash L []) [] hnd
    (fun h hm => by simp)

/-! ## Publisher retry (agents/publisher_agent.py)

`publish_to_youtube` (and the other platform publishers, which share the same
skeleton) checks the credentials, then runs
`for attempt in range(1, MAX_RETRIES + 1)`, where the whole try-body is one
fallible transport call; on failure it sleeps `RETRY_DELAY * attempt` when
`attempt < MAX_RETRIES`, and after the loop returns `None`.  The bare
`except Exception` means no exception escapes to the caller. -/

/-- `PublisherAgent.MAX_RETRIES`. -/
def MAX_RETRIES : Nat := 3

/-- `PublisherAgent.RETRY_DELAY` (seconds). -/
def RETRY_DELAY : Nat := 5

/-- Observable behaviour of one publish call: the returned value (`none` =
Python `None`), how many transport attempts were made, and the sequence of
sleep durations between consecutive attempts. -/
structure PublishTrace where
  result : Option String
  attempts : Nat
  sleeps : List Nat
deriving DecidableEq

/-- The retry loop from attempt number `attempt`, with `remaining` loop
iterations left (`remaining = MAX_RETRIES + 1 - attempt` at every call).
`transport attempt = some url` is success; `none` is any raised exception. -/
def publishFrom (transport : Nat → Option String) : Nat → Nat → PublishTrace
  | 0, _ => { result := none, attempts := 0, sleeps := [] }
  | remaining + 1, attempt =>
    match transport attempt with
    | some url => { result := some url, attempts := 1, sleeps := [] }
    | none =>
      let sleeps := if attempt < MAX_RETRIES then [RETRY_DELAY * attempt] else []
      let rest := publishFrom transport remaining (attempt + 1)
      { result := rest.result, attempts := rest.attempts + 1, sleeps := sleeps ++ rest.sleeps }

/-- `publish_to_youtube`: missing credentials short-circuit to `None` with no
attempt; otherwise the retry loop runs attempts 1 .. MAX_RETRIES. -/
def publish_to_youtube (credentialsPresent : Bool) (transport : Nat → Option String) :
    PublishTrace :=
  if credentialsPresent then publishFrom transport MAX_RETRIES 1
  else { result := none, attempts := 0, sleeps := [] }

/-- C7: with credentials present and an always-failing transport, the
publisher makes exactly MAX_RETRIES = 3 attempts, sleeps
`RETRY_DELAY × attempt` (5 s then 10 s) between consecutive attempts, and
returns `None` without raising. -/
theorem publish_retry_bound (transport : Nat → Option String)
    (hfail : ∀ n, transport n = none) :
    publish_to_youtube true transport =
      { result := none, attempts := MAX_RETRIES,
        sleeps := [RETRY_DELAY * 1, RETRY_DELAY * 2] } := by
  unfold publish_to_youtube
  simp only [if_pos]
  show publishFrom transport 3 1 = _
  unfold publishFrom
  rw [hfail 1]
  unfold publishFrom
  rw [hfail 2]
  unfold publishFrom
  rw [hfail 3]
  rfl

/-- Witness for C7 at the concrete always-`None` transport. -/
theorem publish_retry_bound_witness :
    publish_to_youtube true (fun _ => none) =
      { result := none, attempts := MAX_RETRIES,
        sleeps := [RETRY_DELAY * 1, RETRY_DELAY * 2] } :=
  publish_retry_bound (fun _ => none) (fun _ => rfl)

/-! ## Analytics store (agents/analytics_agent.py)

The `performance` table declares `UNIQUE(platform, post_id, date)` and
`store_metrics` writes with `INSERT OR REPLACE`: SQLite deletes any row that
would violate the unique constraint, then inserts the new row.  A table is
modelled as a list of rows; the row's `date` stands for the
`datetime.now().strftime("%Y-%m-%d")` value at call time. -/

/-- One row of the `performance` table (the autoincrement `id` is immaterial
to the uniqueness claim and omitted). -/
structure PerfRow where
  platform : String
  post_id : String
  date : String
  metrics_json : String
  topic : String
deriving DecidableEq

/-- The UNIQUE key of the `performance` table. -/
def keyOf (r : PerfRow) : String × String × String := (r.platform, r.post_id, r.date)

/-- `store_metrics`: `INSERT OR REPLACE` = delete all rows with the same
(platform, post_id, date), then append the new row. -/
def store_metrics (db : List PerfRow) (r : PerfRow) : List PerfRow :=
  db.filter (fun q => decide (keyOf q ≠ keyOf r)) ++ [r]

/-- One `store_metrics` call preserves distinctness of the UNIQUE keys. -/
theorem store_metrics_preserves_nodup (db : List PerfRow) (r : PerfRow)
    (h : (db.map keyOf).Nodup) : ((store_metrics db r).map keyOf).Nodup := by
  unfold store_metrics
  rw [List.map_append]
  apply List.Nodup.append
  · exact h.sublist (List.Sublist.map keyOf (List.filter_sublist db))
  · simp
  · intro x hx hy
    simp only [List.map, List.mem_singleton] at hy
    subst hy
    rcases List.mem_map.mp hx with ⟨q, hq, hkey⟩
    have := List.of_mem_filter hq
    simp only [decide_eq_true_eq] at this
    exact this hkey

/-- C8: starting from an empty `performance` table, after any sequence of
`store_metrics` calls at most one row exists per (platform, post_id, date)
triple, and storing a row overwrites rather than appends: the rows matching
the new row's key are exactly the new row. -/
theorem store_metrics_unique_key :
    (∀ rs : List PerfRow, ((rs.foldl store_metrics []).map keyOf).Nodup) ∧
    (∀ (db : List PerfRow) (r : PerfRow),
      (store_metrics db r).filter (fun q => decide (keyOf q = keyOf r)) = [r]) := by
  constructor
  · intro rs
    have general : ∀ (rs : List PerfRow) (db : List PerfRow), (db.map keyOf).Nodup →
        ((rs.foldl store_metrics db).map keyOf).Nodup := by
      intro rs
      induction rs with
      | nil => intro db h; exact h
      | cons r rest ih =>
        intro db h
        exact ih (store_metrics db r) (store_metrics_preserves_nodup db r h)
    exact general rs [] (by simp)
  · intro db r
    unfold store_metrics
    rw [List.filter_append]
    have left : (db.filter (fun q => decide (keyOf q ≠ keyOf r))).filter
        (fun q => decide (keyOf q = keyOf r)) = [] := by
      rw [List.filter_filter]
      apply List.filter_eq_nil_iff.mpr
      intro q _
      by_cases hq : keyOf q = keyOf r <;> simp [hq]
    rw [left]
    simp

/-! ## Scheduled-post queue (agents/publisher_agent.py)

`schedule_post` loads the JSON queue file, inserts the record under the key
`<platform>_<timestamp>`, and saves it back; `_load_queue` returns `{}` for a
missing file and the parsed map otherwise.  The queue file holds the
serialized map; the JSON round trip is modelled as faithful, so a saved file
is the map itself. -/

/-- A queued record: platform, content payload (opaque JSON string), target
publish time (ISO format), status. -/
structure QueueEntry where
  platform : String
  content : String
  publish_time : String
  status : String
deriving DecidableEq

/-- A `datetime` value, observed through the two formats the code uses:
`strftime("%Y%m%d_%H%M%S")` for the key and `isoformat()` for the field. -/
structure PyDateTime where
  compact : String
  isoformat : String

/-- The persisted queue: a key → record map in insertion order. -/
abbrev Queue := List (String × QueueEntry)

/-- Dict lookup on the queue (a dict update conses the newest binding, which
`find?` sees first). -/
def lookupQueue (q : Queue) (k : String) : Option QueueEntry :=
  (q.find? (fun p => decide (p.1 = k))).map (fun p => p.2)

/-- `_load_queue`: missing file (`none`) gives `{}`; otherwise the parsed map. -/
def load_queue (file : Option Queue) : Queue :=
  match file with
  | none => []
  | some q => q

/-- `_save_queue`: serialize the map to the file. -/
def save_queue (q : Queue) : Option Queue := some q

/-- `schedule_post`: load the queue, insert the pending record under
`<platform>_<timestamp>`, save; returns the saved file and the entry id. -/
def schedule_post (file : Option Queue) (platform : String) (content : String)
    (publish_time : PyDateTime) : Option Queue × String :=
  let queue := load_queue file
  let entry_id := platform ++ "_" ++ publish_time.compact
  let queue' := (entry_id,
    { platform := platform, content := content,
      publish_time := publish_time.isoformat, status := "pending" }) :: queue
  (save_queue queue', entry_id)

/-- C9: after `schedule_post`, reloading the queue returns, under the key
`<platform>_<timestamp>`, a record whose platform and content equal the ones
written and whose status is "pending". -/
theorem schedule_post_roundtrip (file : Option Queue) (platform content : String)
    (t : PyDateTime) :
    (schedule_post file platform content t).2 = platform ++ "_" ++ t.compact ∧
    lookupQueue (load_queue (schedule_post file platform content t).1)
        (schedule_post file platform content t).2 =
      some { platform := platform, content := content,
             publish_time := t.isoformat, status := "pending" } := by
  constructor
  · rfl
  · unfold schedule_post save_queue load_queue lookupQueue
    simp [List.find?]

/-! ## The ranking claim: characterizing the aggregation passes -/

/-- One `topic_scores` update of the first pass. -/
def tsStep (ts : ScoreMap) (c : Candidate) : ScoreMap :=
  (pyKey c.topic, lookupInt ts (pyKey c.topic) 0 + (rawScore? c.score).getD 50) :: ts

/-- The `topic_scores` accumulated by the first pass, as a pure fold. -/
def tsFold (flat : List Candidate) (ts : ScoreMap) : ScoreMap :=
  flat.foldl tsStep ts

/-- The `word_counter` accumulated by the first pass, as a pure fold. -/
def wcFold (flat : List Candidate) (wc : WordCounter) : WordCounter :=
  flat.foldl (fun wc c => countWords wc (pySplit (pyLower c.topic))) wc

/-- On a non-null score field, `item.get("score", 50)` is the defaulted raw
score. -/
theorem rawScore?_eq_some (c : Candidate) (h : c.score ≠ .null) :
    rawScore? c.score = some ((rawScore? c.score).getD 50) := by
  cases hs : c.score with
  | missing => rfl
  | null => exact absurd hs h
  | val n => rfl

/-- Without a present-but-empty score, the first pass succeeds and returns the
two pure folds. -/
theorem scorePass_ok : ∀ (flat : List Candidate) (ts : ScoreMap) (wc : WordCounter),
    (∀ c ∈ flat, c.score ≠ .null) →
    scorePass flat (ts, wc) = .ok (tsFold flat ts, wcFold flat wc) := by
  intro flat
  induction flat with
  | nil => intro ts wc _; rfl
  | cons c rest ih =>
    intro ts wc hn
    have hc : c.score ≠ .null := hn c (List.mem_cons_self c rest)
    have hrest : ∀ d ∈ rest, d.score ≠ .null := fun d hd => hn d (List.mem_cons_of_mem c hd)
    unfold scorePass
    rw [rawScore?_eq_some c hc]
    show scorePass rest
        ((pyKey c.topic, lookupInt ts (pyKey c.topic) 0 + (rawScore? c.score).getD 50) :: ts,
         countWords wc (pySplit (pyLower c.topic))) = _
    rw [ih _ _ hrest]
    rfl

/-- Looking up `k` in the accumulated `topic_scores`: if some candidate has
comparison key `k`, the start value at `k` plus the sum of the raw scores of
all candidates with key `k`; otherwise the lookup falls through to the start
map. -/
theorem find?_tsFold (k : String) : ∀ (flat : List Candidate) (ts : ScoreMap),
    (tsFold flat ts).find? (fun p => decide (p.1 = k)) =
      if flat.any (fun c => decide (pyKey c.topic = k)) then
        some (k, lookupInt ts k 0 + sumScoresForKey flat k)
      else ts.find? (fun p => decide (p.1 = k)) := by
  intro flat
  induction flat with
  | nil =>
    intro ts
    simp [tsFold, sumScoresForKey]
  | cons c rest ih =>
    intro ts
    have hstep : tsFold (c :: rest) ts = tsFold rest (tsStep ts c) := by
      unfold tsFold
      rw [List.foldl_cons]
    rw [hstep, ih (tsStep ts c)]
    by_cases he : pyKey c.topic = k
    · have hany : (c :: rest).any (fun c => decide (pyKey c.topic = k)) = true := by
        simp [List.any_cons, he]
      rw [if_pos hany]
      have hlook : lookupInt (tsStep ts c) k 0 =
          lookupInt ts k 0 + (rawScore? c.score).getD 50 := by
        unfold lookupInt tsStep
        rw [List.find?_cons_of_pos _ (by simp [he])]
        rw [he]
        rfl
      have hsum : sumScoresForKey (c :: rest) k =
          (rawScore? c.score).getD 50 + sumScoresForKey rest k := by
        unfold sumScoresForKey
        rw [List.filter_cons_of_pos (by simp [he]), List.map_cons, List.sum_cons]
      by_cases hrany : rest.any (fun c => decide (pyKey c.topic = k)) = true
      · rw [if_pos hrany, hlook, hsum]
        congr 2
        omega
      · rw [if_neg hrany]
        have hsum0 : sumScoresForKey rest k = 0 := by
          unfold sumScoresForKey
          rw [List.filter_eq_nil_iff.mpr ?_]
          · rfl
          · intro d hd
            have := List.any_eq_true.not.mp hrany
            push_neg at this
            exact this d hd
        unfold tsStep
        rw [List.find?_cons_of_pos _ (by simp [he])]
        rw [hsum, hsum0, he, add_zero]
    · have hany : (c :: rest).any (fun c => decide (pyKey c.topic = k)) =
          rest.any (fun c => decide (pyKey c.topic = k)) := by
        simp [List.any_cons, he]
      have hsum : sumScoresForKey (c :: rest) k = sumScoresForKey rest k := by
        unfold sumScoresForKey
        rw [List.filter_cons_of_neg (by simp [he])]
      have hfind : (tsStep ts c).find? (fun p => decide (p.1 = k)) =
          ts.find? (fun p => decide (p.1 = k)) := by
        unfold tsStep
        rw [List.find?_cons_of_neg _ (by simp [he])]
      have hlook : lookupInt (tsStep ts c) k 0 = lookupInt ts k 0 := by
        unfold lookupInt
        rw [hfind]
      rw [hany, hsum, hlook, hfind]

/-- For a candidate in the flattened list, `topic_scores.get(key, 50)` is the
sum of the raw scores of all candidates sharing its comparison key. -/
theorem lookupInt_tsFold_of_mem (flat : List Candidate) (c : Candidate) (hc : c ∈ flat) :
    lookupInt (tsFold flat []) (pyKey c.topic) 50 = sumScoresForKey flat (pyKey c.topic) := by
  have hany : flat.any (fun d => decide (pyKey d.topic = pyKey c.topic)) = true :=
    List.any_eq_true.mpr ⟨c, hc, by simp⟩
  unfold lookupInt
  rw [find?_tsFold (pyKey c.topic) flat []]
  rw [if_pos hany]
  show lookupInt [] (pyKey c.topic) 0 + sumScoresForKey flat (pyKey c.topic) = _
  rw [show lookupInt [] (pyKey c.topic) 0 = 0 from rfl, zero_add]

/-- Looking up `w` after the inner word loop: the count rises by the number
of occurrences of `w` in the processed word list when `w` qualifies
(length > 4), else stays. -/
theorem lookupNat_countWords (w : String) : ∀ (ws : List String) (wc : WordCounter),
    lookupNat (countWords wc ws) w =
      lookupNat wc w + (if w.length > 4 then ws.count w else 0) := by
  intro ws
  induction ws with
  | nil => intro wc; simp [countWords]
  | cons v rest ih =>
    intro wc
    have hstep : countWords wc (v :: rest) =
        countWords (if v.length > 4 then (v, lookupNat wc v + 1) :: wc else wc) rest := by
      unfold countWords
      rw [List.foldl_cons]
    rw [hstep, ih]
    by_cases hv : v.length > 4
    · simp only [hv, if_pos]
      by_cases hvw : v = w
      · subst hvw
        have hhead : lookupNat ((v, lookupNat wc v + 1) :: wc) v = lookupNat wc v + 1 := by
          unfold lookupNat
          rw [List.find?_cons_of_pos _ (by simp)]
        rw [hhead, List.count_cons]
        simp [hv]
        omega
      · have hhead : lookupNat ((v, lookupNat wc v + 1) :: wc) w = lookupNat wc w := by
          unfold lookupNat
          rw [List.find?_cons_of_neg _ (by simp [hvw])]
        rw [hhead, List.count_cons]
        simp [hvw]
    · simp only [hv, if_neg, not_false_iff]
      by_cases hvw : v = w
      · subst hvw
        simp [hv]
      · rw [List.count_cons]
        simp [hvw]

/-- Looking up `w` in the accumulated `word_counter`: its start count plus,
when `w` qualifies, its total occurrence count across all candidates'
lower-cased topics. -/
theorem lookupNat_wcFold (w : String) : ∀ (flat : List Candidate) (wc : WordCounter),
    lookupNat (wcFold flat wc) w =
      lookupNat wc w + (if w.length > 4 then rawOccurrences flat w else 0) := by
  intro flat
  induction flat with
  | nil => intro wc; simp [wcFold, rawOccurrences]
  | cons c rest ih =>
    intro wc
    have hstep : wcFold (c :: rest) wc =
        wcFold rest (countWords wc (pySplit (pyLower c.topic))) := by
      unfold wcFold
      rw [List.foldl_cons]
    rw [hstep, ih, lookupNat_countWords]
    have hocc : rawOccurrences (c :: rest) w =
        (pySplit (pyLower c.topic)).count w + rawOccurrences rest w := by
      unfold rawOccurrences
      rw [List.map_cons, List.sum_cons]
    rw [hocc]
    by_cases hw : w.length > 4
    · simp [hw]
      omega
    · simp [hw]

/-- For a candidate of the flattened list, the second pass computes exactly
the amended final score, with the topic and source fields carried through. -/
theorem rankItem_eq_amended (flat : List Candidate) (c : Candidate) (hc : c ∈ flat) :
    rankItem (tsFold flat []) (wcFold flat []) c =
      { topic := c.topic, score := amendedFinalScore flat c,
        source := some (c.source.getD "unknown") } := by
  unfold rankItem amendedFinalScore
  have hbase := lookupInt_tsFold_of_mem flat c hc
  have hbonus : ((pySplit (pyKey c.topic)).filter (fun w => w.length > 4)).map
        (fun w => lookupNat (wcFold flat []) w) =
      ((pySplit (pyKey c.topic)).filter (fun w => w.length > 4)).map
        (fun w => rawOccurrences flat w) := by
    apply List.map_congr_left
    intro w hw
    have hlen : w.length > 4 := by
      have := List.of_mem_filter hw
      simpa using this
    rw [lookupNat_wcFold]
    simp [hlen, lookupNat]
  simp only []
  rw [hbase, hbonus]

/-- C1 (amended): on a non-empty flattened candidate list with no
present-but-empty score, `analyze_and_rank_trends` returns exactly the list
obtained by scoring each candidate with the aggregated key score plus the
word-frequency bonus over the words of its truncated comparison key, stably
sorting by score descending, deduplicating by comparison key and stopping
after 3 unique results. -/
theorem analyze_matches_amended_spec (allTrends : List (List Candidate))
    (keywords : List String) (hne : allTrends.flatten ≠ [])
    (hnull : ∀ c ∈ allTrends.flatten, c.score ≠ ScoreField.null) :
    analyze_and_rank_trends allTrends keywords =
      .ok (amendedRankedList allTrends.flatten) := by
  unfold analyze_and_rank_trends analyzeRankedCore
  have hni : allTrends.flatten.isEmpty = false := by
    cases h : allTrends.flatten with
    | nil => exact absurd h hne
    | cons a l => rfl
  have hcond : ¬(allTrends.flatten.isEmpty = true) := by
    rw [hni]; exact Bool.false_ne_true
  rw [if_neg hcond]
  rw [scorePass_ok allTrends.flatten [] [] hnull]
  show Except.ok (dedupLoop (pySortDesc (allTrends.flatten.map
      (rankItem (tsFold allTrends.flatten []) (wcFold allTrends.flatten [])))) [] []) = _
  unfold amendedRankedList
  congr 1
  congr 1
  congr 1
  apply List.map_congr_left
  intro c hc
  exact rankItem_eq_amended allTrends.flatten c hc

/-- Witness for C1's amended theorem at a concrete one-candidate input. -/
theorem analyze_matches_amended_spec_witness :
    ([[{ topic := "Tunis beaches", score := .val 80, source := none }]] :
        List (List Candidate)).flatten ≠ [] ∧
    analyze_and_rank_trends
        [[{ topic := "Tunis beaches", score := .val 80, source := none }]] tunisKeywords =
      .ok (amendedRankedList
        ([[{ topic := "Tunis beaches", score := .val 80, source := none }]] :
          List (List Candidate)).flatten) :=
  ⟨by decide,
   analyze_matches_amended_spec
     [[{ topic := "Tunis beaches", score := .val 80, source := none }]] tunisKeywords
     (by decide) (by decide)⟩

/-- A topic of 83 characters: the 80-character truncation cuts "beaches" to
"beac" (length 4), which no longer qualifies for the word-frequency bonus. -/
def longTopic : String :=
  "xxxxxxxxxxxxxxxxxxxxxxxxxxxxxxxxxxxxxxxxxxxxxxxxxxxxxxxxxxxxxxxxxxxxxxxxxxx beaches"

/-- The candidate whose topic exceeds the 80-character truncation. -/
def cxLong : Candidate := { topic := longTopic, score := .val 10, source := none }

/-- C1 counterexample: on the single long-topic candidate the code scores
10 + 1 (the bonus counts only the 75-character word surviving truncation),
while the claim's recipe — bonus words drawn from the full topic — scores
10 + 2 (also counting "beaches"), so `analyze_and_rank_trends` does not
return the claim's list. -/
theorem analyze_truncation_counterexample :
    analyze_and_rank_trends [[cxLong]] tunisKeywords =
      .ok [{ topic := longTopic, score := 11, source := some "unknown" }] ∧
    claimRankedList [cxLong] =
      [{ topic := longTopic, score := 12, source := some "unknown" }] ∧
    analyze_and_rank_trends [[cxLong]] tunisKeywords ≠ .ok (claimRankedList [cxLong]) := by
  refine ⟨by decide, by decide, by decide⟩

/-! ## The score-defaulting claim -/

/-- Replace a missing score field by an explicit 50 (the value
`item.get("score", 50)` substitutes for it). -/
def fillMissing (c : Candidate) : Candidate :=
  match c.score with
  | .missing => { c with score := .val 50 }
  | _ => c

/-- `fillMissing` changes only the score field. -/
theorem fillMissing_topic (c : Candidate) : (fillMissing c).topic = c.topic := by
  unfold fillMissing
  cases c.score <;> rfl

/-- `fillMissing` changes only the score field. -/
theorem fillMissing_source (c : Candidate) : (fillMissing c).source = c.source := by
  unfold fillMissing
  cases c.score <;> rfl

/-- The defaulted raw score is unchanged by `fillMissing`. -/
theorem fillMissing_rawScore (c : Candidate) :
    rawScore? (fillMissing c).score = rawScore? c.score := by
  obtain ⟨t, s, src⟩ := c
  cases s <;> rfl

/-- The first pass cannot tell a missing score from an explicit 50. -/
theorem scorePass_fillMissing : ∀ (flat : List Candidate) (ts : ScoreMap) (wc : WordCounter),
    scorePass (flat.map fillMissing) (ts, wc) = scorePass flat (ts, wc) := by
  intro flat
  induction flat with
  | nil => intro ts wc; rfl
  | cons c rest ih =>
    intro ts wc
    rw [List.map_cons]
    unfold scorePass
    rw [fillMissing_rawScore, fillMissing_topic]
    cases hr : rawScore? c.score with
    | none => rfl
    | some s => exact ih _ _

/-- The second pass reads only the topic and source fields, which
`fillMissing` preserves. -/
theorem rankItem_fillMissing (ts : ScoreMap) (wc : WordCounter) (c : Candidate) :
    rankItem ts wc (fillMissing c) = rankItem ts wc c := by
  unfold rankItem
  rw [fillMissing_topic, fillMissing_source]

/-- Flattening commutes with the per-list `fillMissing` map. -/
theorem flatten_map_fillMissing (L : List (List Candidate)) :
    (L.map (fun l => l.map fillMissing)).flatten = L.flatten.map fillMissing := by
  induction L with
  | nil => rfl
  | cons l rest ih =>
    rw [List.map_cons, List.flatten_cons, List.flatten_cons, List.map_append, ih]

/-- C4 (amended): a candidate whose score field is missing is treated exactly
as one with an explicit raw score of 50 — replacing every missing score field
by 50 leaves the result of `analyze_and_rank_trends` unchanged.  (A
present-but-empty score field, by contrast, raises: see the counterexample.) -/
theorem missing_score_defaults_fifty (allTrends : List (List Candidate))
    (keywords : List String) :
    analyze_and_rank_trends (allTrends.map (fun l => l.map fillMissing)) keywords =
      analyze_and_rank_trends allTrends keywords := by
  unfold analyze_and_rank_trends
  rw [flatten_map_fillMissing]
  unfold analyzeRankedCore
  cases hF : allTrends.flatten with
  | nil => rfl
  | cons c rest =>
    rw [List.map_cons]
    simp only [List.isEmpty_cons, Bool.false_eq_true, if_false]
    rw [← List.map_cons fillMissing c rest]
    rw [scorePass_fillMissing (c :: rest) [] []]
    cases hsp : scorePass (c :: rest) ([], []) with
    | error e => rfl
    | ok st =>
      obtain ⟨ts, wc⟩ := st
      show Except.ok (dedupLoop (pySortDesc (((c :: rest).map fillMissing).map
          (rankItem ts wc))) [] []) =
        Except.ok (dedupLoop (pySortDesc ((c :: rest).map (rankItem ts wc))) [] [])
      rw [List.map_map]
      have hmap : (c :: rest).map (rankItem ts wc ∘ fillMissing) =
          (c :: rest).map (rankItem ts wc) :=
        List.map_congr_left (fun d _ => rankItem_fillMissing ts wc d)
      rw [hmap]

/-- A candidate whose score field is present but empty (Python `None`/`""`). -/
def emptyScoreCand : Candidate := { topic := "tunis", score := .null, source := none }

/-- C4 counterexample: a present-but-empty score field is not treated as 50 —
the aggregation `topic_scores.get(key, 0) + score` raises a `TypeError`
(modelled as `.error ()`), so `analyze_and_rank_trends` raises instead of
returning a ranking. -/
theorem empty_score_field_raises :
    analyze_and_rank_trends [[emptyScoreCand]] tunisKeywords = .error () := by
  decide
